import Mathlib

/-!
Verification development for the log analyzer in `src/log_analyzer.py`.

The program scans a log file for lines matching a pattern, prints each
matching line with its bracketed timestamp converted to US Pacific time,
and reports the average interval between consecutive matches.

The shallow embedding below models:
  * `grep_file`   : a Python generator filtering file lines by a pattern;
  * `get_time`    : extraction of the first `- - [...]` group via
                    `re.findall` plus `strptime "%d/%b/%Y:%H:%M:%S %z"`;
  * `process_line`: two `re.sub` rewrites of the line text;
  * `get_average` : `reduce(+) / len`;
  * `main`        : the driver with its exit codes and printed output.

Machine strings are modelled as `List Char` (Lean `String` wrappers at the
boundary).  Absolute instants are integers (seconds since the Unix epoch);
durations are integers, and the average is an exact rational, matching the
exact duration arithmetic of `datetime`/`timedelta` (the microsecond
quantisation of the concrete `timedelta` type is below the resolution of
every claim treated here).  Fallible Python code (uncaught `IndexError`,
`ValueError`, `re.error`) is modelled with `Except PyErr`.
-/

/-- Python exception kinds that the analyzer can raise. -/
inductive PyErr where
  | indexError
  | valueError
  | patternInvalid
deriving DecidableEq, Repr

/-- An aware `datetime`: an absolute instant (seconds since the Unix epoch,
UTC) together with the UTC offset (in seconds) it is displayed with.
Subtraction of aware datetimes in Python compares absolute instants only. -/
structure Timestamp where
  instant : Int
  offset : Int
deriving DecidableEq, Repr

instance : Inhabited Timestamp := ⟨⟨0, 0⟩⟩

/-! ### Calendar arithmetic (proleptic Gregorian, as used by `datetime`) -/

/-- Days since 1970-01-01 of the civil date y-m-d (Gregorian).  Standard
days-from-civil algorithm with floor division. -/
def daysFromCivil (y m d : Int) : Int :=
  let yy := y - (if m ≤ 2 then 1 else 0)
  let era := Int.fdiv yy 400
  let yoe := yy - era * 400
  let mp := Int.emod (m + 9) 12
  let doy := Int.fdiv (153 * mp + 2) 5 + d - 1
  let doe := yoe * 365 + Int.fdiv yoe 4 - Int.fdiv yoe 100 + doy
  era * 146097 + doe - 719468

/-- Civil date (y, m, d) of a count of days since 1970-01-01 (Gregorian).
Standard civil-from-days algorithm with floor division. -/
def civilFromDays (z0 : Int) : Int × Int × Int :=
  let z := z0 + 719468
  let era := Int.fdiv z 146097
  let doe := z - era * 146097
  let yoe := Int.fdiv (doe - Int.fdiv doe 1460 + Int.fdiv doe 36524 - Int.fdiv doe 146096) 365
  let y := yoe + era * 400
  let doy := doe - (365 * yoe + Int.fdiv yoe 4 - Int.fdiv yoe 100)
  let mp := Int.fdiv (5 * doy + 2) 153
  let d := doy - Int.fdiv (153 * mp + 2) 5 + 1
  let m := mp + (if mp < 10 then 3 else -9)
  (y + (if m ≤ 2 then 1 else 0), m, d)

/-- Gregorian leap-year test. -/
def isLeap (y : Int) : Bool :=
  (Int.emod y 4 == 0 && Int.emod y 100 != 0) || Int.emod y 400 == 0

/-- Number of days in month `m` of year `y` (0 for an invalid month). -/
def daysInMonth (y : Int) (m : Nat) : Nat :=
  match m with
  | 1 => 31 | 3 => 31 | 5 => 31 | 7 => 31 | 8 => 31 | 10 => 31 | 12 => 31
  | 4 => 30 | 6 => 30 | 9 => 30 | 11 => 30
  | 2 => if isLeap y then 29 else 28
  | _ => 0

/-! ### The target timezone

`process_line` converts with `timeval.astimezone(timezone('US/Pacific'))`.
`astimezone` preserves the absolute instant and only changes the attached
UTC offset.  `pacificOffset` models the pytz `US/Pacific` zone under the
post-2007 United States DST rules (DST from the second Sunday of March,
02:00 standard time, to the first Sunday of November, 02:00 daylight
time). -/

/-- UTC instant (seconds) at which DST starts in year `y` in the US:
second Sunday of March, 02:00 standard time = 10:00 UTC for Pacific. -/
def pacificDstStart (y : Int) : Int :=
  let d1 := daysFromCivil y 3 1
  let w := Int.emod (d1 + 4) 7
  let firstSun := d1 + Int.emod (7 - w) 7
  (firstSun + 7) * 86400 + 10 * 3600

/-- UTC instant (seconds) at which DST ends in year `y` in the US:
first Sunday of November, 02:00 daylight time = 09:00 UTC for Pacific. -/
def pacificDstEnd (y : Int) : Int :=
  let d1 := daysFromCivil y 11 1
  let w := Int.emod (d1 + 4) 7
  let firstSun := d1 + Int.emod (7 - w) 7
  firstSun * 86400 + 9 * 3600

/-- UTC offset (seconds) of `US/Pacific` at a given absolute instant. -/
def pacificOffset (instant : Int) : Int :=
  let y := (civilFromDays (Int.fdiv instant 86400)).1
  if pacificDstStart y ≤ instant ∧ instant < pacificDstEnd y then -25200 else -28800

/-- The constant UTC offset function (for conversion back to UTC). -/
def utcOffsetFn : Int → Int := fun _ => 0

/-- Model of `datetime.astimezone(tz)`: the absolute instant is preserved,
only the display offset is recomputed from the zone. -/
def astimezoneTo (offsetOf : Int → Int) (t : Timestamp) : Timestamp :=
  ⟨t.instant, offsetOf t.instant⟩

/-- The conversion performed in `process_line`:
`timeval.astimezone(timezone('US/Pacific'))`. -/
def pacConvert (t : Timestamp) : Timestamp :=
  astimezoneTo pacificOffset t

/-! ### Character classes of the regexes (`\w`, `\s`, `\d`, over ASCII) -/

/-- Python regex `\w` (ASCII fragment): letters, digits, underscore. -/
def isWordChar (c : Char) : Bool := c.isAlphanum || c == '_'

/-- Python regex `\s` (ASCII fragment). -/
def isSpaceChar (c : Char) : Bool :=
  c == ' ' || c == '\t' || c == '\n' || c == '\x0d' || c == '\x0b' || c == '\x0c'

/-- Python regex `\d` (ASCII fragment). -/
def isDigitChar (c : Char) : Bool := c.isDigit

/-- Numeric value of a decimal digit character. -/
def d2n (c : Char) : Nat := c.toNat - 48

/-- Decimal digit character for `n % 10`. -/
def digitCh (n : Nat) : Char :=
  match n % 10 with
  | 0 => '0' | 1 => '1' | 2 => '2' | 3 => '3' | 4 => '4'
  | 5 => '5' | 6 => '6' | 7 => '7' | 8 => '8' | _ => '9'

/-- Two-digit zero-padded decimal rendering (`strftime` `%d`, `%m`, `%H`,
`%M`, `%S` for their in-range values). -/
def pad2 (n : Int) : List Char := [digitCh (n.toNat / 10), digitCh n.toNat]

/-- Four-digit zero-padded decimal rendering (`strftime` `%Y` for the years
occurring in log files). -/
def pad4 (n : Int) : List Char :=
  [digitCh (n.toNat / 1000), digitCh (n.toNat / 100), digitCh (n.toNat / 10),
   digitCh n.toNat]

/-! ### strptime: `"%d/%b/%Y:%H:%M:%S %z"` -/

/-- Month number of a `%b` month abbreviation (canonical capitalisation,
as produced by Apache/NCSA logs). -/
def monthNum (s : List Char) : Option Nat :=
  match s with
  | ['J', 'a', 'n'] => some 1
  | ['F', 'e', 'b'] => some 2
  | ['M', 'a', 'r'] => some 3
  | ['A', 'p', 'r'] => some 4
  | ['M', 'a', 'y'] => some 5
  | ['J', 'u', 'n'] => some 6
  | ['J', 'u', 'l'] => some 7
  | ['A', 'u', 'g'] => some 8
  | ['S', 'e', 'p'] => some 9
  | ['O', 'c', 't'] => some 10
  | ['N', 'o', 'v'] => some 11
  | ['D', 'e', 'c'] => some 12
  | _ => none

/-- Model of `datetime.strptime(s, "%d/%b/%Y:%H:%M:%S %z")` on the
canonical fixed-width form `DD/Mon/YYYY:HH:MM:SS +HHMM` found in logs.
Returns the aware timestamp (absolute instant and parsed UTC offset), or
`valueError` when the text does not parse or a field is out of range. -/
def strptimeLog (g : List Char) : Except PyErr Timestamp :=
  match g with
  | [d1, d2, '/', a, b, c, '/', y1, y2, y3, y4, ':', h1, h2, ':',
     n1, n2, ':', s1, s2, ' ', sg, z1, z2, z3, z4] =>
    if isDigitChar d1 && isDigitChar d2 && isDigitChar y1 && isDigitChar y2 &&
       isDigitChar y3 && isDigitChar y4 && isDigitChar h1 && isDigitChar h2 &&
       isDigitChar n1 && isDigitChar n2 && isDigitChar s1 && isDigitChar s2 &&
       (sg == '+' || sg == '-') && isDigitChar z1 && isDigitChar z2 &&
       isDigitChar z3 && isDigitChar z4 then
      match monthNum [a, b, c] with
      | none => .error .valueError
      | some mo =>
        let day := 10 * d2n d1 + d2n d2
        let year : Int := (1000 * d2n y1 + 100 * d2n y2 + 10 * d2n y3 + d2n y4 : Nat)
        let hh := 10 * d2n h1 + d2n h2
        let mi := 10 * d2n n1 + d2n n2
        let ss := 10 * d2n s1 + d2n s2
        let offMin := 10 * d2n z3 + d2n z4
        if 1 ≤ day ∧ day ≤ daysInMonth year mo ∧ hh ≤ 23 ∧ mi ≤ 59 ∧ ss ≤ 59 ∧
           offMin ≤ 59 then
          let off : Int :=
            (if sg == '-' then -1 else 1) *
              (3600 * (10 * d2n z1 + d2n z2) + 60 * offMin : Nat)
          .ok ⟨daysFromCivil year mo day * 86400 +
                 (3600 * hh + 60 * mi + ss : Nat) - off, off⟩
        else .error .valueError
    else .error .valueError
  | _ => .error .valueError

/-! ### The bracket regex `- - \[.*\]`

`get_time` uses `re.findall('- - \[(.*)\]', line)` and `process_line`
uses `re.sub(r'- - \[.*\]', repl, line)`.  The pattern is a literal
`- - [`, then a greedy `.*` (any characters except newline), then a
literal `]`.  A match at a given position therefore extends to the last
`]` before the next newline.  `re.sub` replaces the leftmost match and
resumes scanning after it. -/

/-- Index of the last `]` in a list, if any. -/
def lastBracketIdx : List Char → Option Nat
  | [] => none
  | c :: r =>
    match lastBracketIdx r with
    | some i => some (i + 1)
    | none => if c = ']' then some 0 else none

/-- The literal `- - [` that opens the bracket pattern. -/
def bracketOpen : List Char := ['-', ' ', '-', ' ', '[']

/-- Attempts to match `- - \[.*\]` at the head of `l`; returns the length
of the (greedy) match.  The `.*` stops at a newline, and backtracks to the
last `]` of that segment. -/
def matchAAt (l : List Char) : Option Nat :=
  if l.take 5 = bracketOpen then
    match lastBracketIdx ((l.drop 5).takeWhile (fun c => c != '\n')) with
    | none => none
    | some i => some (6 + i)
  else none

/-- Leftmost match of `- - \[.*\]` in `l`: start position and end position
(exclusive), as found by the regex engine scanning left to right. -/
def findA : List Char → Option (Nat × Nat)
  | [] => none
  | c :: r =>
    match matchAAt (c :: r) with
    | some n => some (0, n)
    | none =>
      match findA r with
      | some (s, e) => some (s + 1, e + 1)
      | none => none

theorem lastBracketIdx_lt {l : List Char} {i : Nat} (h : lastBracketIdx l = some i) :
    i < l.length := by
  induction l generalizing i with
  | nil => simp [lastBracketIdx] at h
  | cons c r ih =>
    cases hr : lastBracketIdx r with
    | some j =>
      simp only [lastBracketIdx, hr, Option.some.injEq] at h
      subst h
      simpa using Nat.succ_lt_succ (ih hr)
    | none =>
      simp only [lastBracketIdx, hr] at h
      by_cases hc : c = ']'
      · simp only [if_pos hc, Option.some.injEq] at h
        subst h
        simp
      · simp only [if_neg hc] at h
        exact Option.noConfusion h

theorem lastBracketIdx_get {l : List Char} {i : Nat} (h : lastBracketIdx l = some i) :
    l.get? i = some ']' := by
  induction l generalizing i with
  | nil => simp [lastBracketIdx] at h
  | cons c r ih =>
    cases hr : lastBracketIdx r with
    | some j =>
      simp only [lastBracketIdx, hr, Option.some.injEq] at h
      subst h
      simpa using ih hr
    | none =>
      simp only [lastBracketIdx, hr] at h
      by_cases hc : c = ']'
      · simp only [if_pos hc, Option.some.injEq] at h
        subst h
        simp [hc]
      · simp only [if_neg hc] at h
        exact Option.noConfusion h

theorem matchAAt_nil : matchAAt [] = none := by decide

theorem matchAAt_bounds {l : List Char} {n : Nat} (h : matchAAt l = some n) :
    6 ≤ n ∧ n ≤ l.length := by
  unfold matchAAt at h
  split at h
  case isTrue htake =>
    cases hlb : lastBracketIdx ((l.drop 5).takeWhile (fun c => c != '\n')) with
    | none => rw [hlb] at h; cases h
    | some i =>
      rw [hlb] at h
      cases h
      have h5 : 5 ≤ l.length := by
        have := congrArg List.length htake
        simp [bracketOpen] at this
        omega
      have hi := lastBracketIdx_lt hlb
      have hseg : ((l.drop 5).takeWhile (fun c => c != '\n')).length ≤ (l.drop 5).length :=
        (List.takeWhile_prefix _).length_le
      have hdl : (l.drop 5).length = l.length - 5 := List.length_drop 5 l
      omega
  case isFalse => cases h

theorem matchAAt_take5 {l : List Char} {n : Nat} (h : matchAAt l = some n) :
    l.take 5 = bracketOpen := by
  unfold matchAAt at h
  split at h
  case isTrue htake => exact htake
  case isFalse => cases h

/-- A match of the bracket pattern begins with the character `-`. -/
theorem matchAAt_cons_ne {c : Char} {v : List Char} (hc : c ≠ '-') :
    matchAAt (c :: v) = none := by
  unfold matchAAt
  split
  case isTrue htake =>
    exfalso
    apply hc
    have : (c :: v).take 5 = c :: v.take 4 := by simp [List.take_succ_cons]
    rw [this] at htake
    simpa [bracketOpen] using congrArg (fun l => l.head?) htake
  case isFalse => rfl

theorem findA_bounds {l : List Char} {s e : Nat} (h : findA l = some (s, e)) :
    s + 6 ≤ e ∧ e ≤ l.length := by
  induction l generalizing s e with
  | nil => simp [findA] at h
  | cons c r ih =>
    simp only [findA] at h
    cases hm : matchAAt (c :: r) with
    | some n =>
      rw [hm] at h
      cases h
      have := matchAAt_bounds hm
      simpa using this
    | none =>
      rw [hm] at h
      cases hf : findA r with
      | some se =>
        obtain ⟨s0, e0⟩ := se
        rw [hf] at h
        cases h
        have := ih hf
        simp only [List.length_cons]
        omega
      | none => rw [hf] at h; cases h

theorem findA_spec {l : List Char} {s e : Nat} (h : findA l = some (s, e)) :
    matchAAt (l.drop s) = some (e - s) ∧ ∀ j, j < s → matchAAt (l.drop j) = none := by
  induction l generalizing s e with
  | nil => simp [findA] at h
  | cons c r ih =>
    cases hm : matchAAt (c :: r) with
    | some n =>
      simp only [findA, hm, Option.some.injEq, Prod.mk.injEq] at h
      obtain ⟨hs, he⟩ := h
      subst hs; subst he
      refine ⟨by simpa using hm, ?_⟩
      intro j hj
      omega
    | none =>
      simp only [findA, hm] at h
      cases hf : findA r with
      | some se =>
        obtain ⟨s0, e0⟩ := se
        rw [hf] at h
        simp only [Option.some.injEq, Prod.mk.injEq] at h
        obtain ⟨hs, he⟩ := h
        subst hs; subst he
        obtain ⟨h1, h2⟩ := ih hf
        constructor
        · simpa using h1
        · intro j hj
          cases j with
          | zero => simpa using hm
          | succ j0 =>
            have : (c :: r).drop (j0 + 1) = r.drop j0 := by simp
            rw [this]
            exact h2 j0 (by omega)
      | none => rw [hf] at h; exact Option.noConfusion h

theorem findA_none {l : List Char} (h : findA l = none) :
    ∀ j, matchAAt (l.drop j) = none := by
  induction l with
  | nil =>
    intro j
    simpa using matchAAt_nil
  | cons c r ih =>
    intro j
    cases hm : matchAAt (c :: r) with
    | some n => simp [findA, hm] at h
    | none =>
      simp only [findA, hm] at h
      cases hf : findA r with
      | some se => obtain ⟨s0, e0⟩ := se; rw [hf] at h; exact Option.noConfusion h
      | none =>
        cases j with
        | zero => simpa using hm
        | succ j0 =>
          have : (c :: r).drop (j0 + 1) = r.drop j0 := by simp
          rw [this]
          exact ih hf j0

theorem findA_of_matchAAt {l : List Char} {s e : Nat}
    (hmin : ∀ j, j < s → matchAAt (l.drop j) = none)
    (hs : matchAAt (l.drop s) = some (e - s)) (hse : s ≤ e) :
    findA l = some (s, e) := by
  induction l generalizing s e with
  | nil =>
    rw [List.drop_nil] at hs
    rw [matchAAt_nil] at hs
    exact Option.noConfusion hs
  | cons c r ih =>
    cases s with
    | zero =>
      rw [List.drop_zero] at hs
      rw [findA]
      rw [hs]
      simp
    | succ s0 =>
      have h0 : matchAAt (c :: r) = none := by simpa using hmin 0 (Nat.succ_pos s0)
      rw [findA]
      rw [h0]
      have hs0 : matchAAt (r.drop s0) = some (e - 1 - s0) := by
        have : (c :: r).drop (s0 + 1) = r.drop s0 := by simp
        rw [this] at hs
        have : e - (s0 + 1) = e - 1 - s0 := by omega
        rwa [this] at hs
      have hmin0 : ∀ j, j < s0 → matchAAt (r.drop j) = none := by
        intro j hj
        have : (c :: r).drop (j + 1) = r.drop j := by simp
        rw [← this]
        exact hmin (j + 1) (by omega)
      have he1 : 1 ≤ e := by omega
      have hrec := ih hmin0 hs0 (by omega)
      rw [hrec]
      simp
      omega

theorem findA_drop {l : List Char} {s e k : Nat} (hk : k ≤ s)
    (h : findA l = some (s, e)) : findA (l.drop k) = some (s - k, e - k) := by
  obtain ⟨h1, h2⟩ := findA_spec h
  obtain ⟨hb1, hb2⟩ := findA_bounds h
  apply findA_of_matchAAt
  · intro j hj
    rw [List.drop_drop]
    exact h2 (k + j) (by omega)
  · rw [List.drop_drop]
    have hsk : k + (s - k) = s := by omega
    rw [hsk]
    have he : e - k - (s - k) = e - s := by omega
    rw [he]
    exact h1
  · omega

theorem findA_none_drop {l : List Char} (h : findA l = none) (k : Nat) :
    findA (l.drop k) = none := by
  cases hf : findA (l.drop k) with
  | none => rfl
  | some se =>
    obtain ⟨s0, e0⟩ := se
    obtain ⟨h1, _⟩ := findA_spec hf
    rw [List.drop_drop] at h1
    rw [findA_none h (k + s0)] at h1
    exact Option.noConfusion h1

/-- If no character of `p` is a `-`, the bracket pattern cannot match at
any position inside `p`, so the leftmost match of `p ++ w` is the leftmost
match of `w`, shifted. -/
theorem findA_append {p w : List Char} (hp : ∀ c ∈ p, c ≠ '-') :
    findA (p ++ w) = (findA w).map (fun se => (se.1 + p.length, se.2 + p.length)) := by
  induction p with
  | nil =>
    simp only [List.nil_append, List.length_nil]
    cases findA w with
    | none => rfl
    | some se => simp
  | cons c p0 ih =>
    have hc : c ≠ '-' := hp c (by simp)
    have hrest : ∀ x ∈ p0, x ≠ '-' := fun x hx => hp x (by simp [hx])
    rw [List.cons_append, findA]
    rw [matchAAt_cons_ne hc]
    rw [ih hrest]
    cases findA w with
    | none => rfl
    | some se =>
      obtain ⟨s0, e0⟩ := se
      simp
      omega

/-! ### strftime rendering used by `process_line` -/

/-- Abbreviated month name (`strftime` `%b`); months outside 1..12 never
arise from valid timestamps. -/
def monthAbbrevL (m : Int) : List Char :=
  match m with
  | 1 => ['J', 'a', 'n']
  | 2 => ['F', 'e', 'b']
  | 3 => ['M', 'a', 'r']
  | 4 => ['A', 'p', 'r']
  | 5 => ['M', 'a', 'y']
  | 6 => ['J', 'u', 'n']
  | 7 => ['J', 'u', 'l']
  | 8 => ['A', 'u', 'g']
  | 9 => ['S', 'e', 'p']
  | 10 => ['O', 'c', 't']
  | 11 => ['N', 'o', 'v']
  | _ => ['D', 'e', 'c']

/-- Civil fields (year, month, day, hour, minute, second) a timestamp is
displayed with: the instant shifted by the attached UTC offset. -/
def civilOf (t : Timestamp) : Int × Int × Int × Int × Int × Int :=
  let ls := t.instant + t.offset
  let days := Int.fdiv ls 86400
  let sod := Int.emod ls 86400
  let ymd := civilFromDays days
  (ymd.1, ymd.2.1, ymd.2.2, Int.fdiv sod 3600, Int.fdiv (Int.emod sod 3600) 60,
   Int.emod sod 60)

/-- `strftime` `%z`: the UTC offset as a sign and four digits. -/
def fmtOffset (off : Int) : List Char :=
  (if off < 0 then '-' else '+') ::
    (pad2 (Int.fdiv (if off < 0 then -off else off) 3600) ++
     pad2 (Int.fdiv (Int.emod (if off < 0 then -off else off) 3600) 60))

/-- The replacement text of the first substitution in `process_line`:
`timeval.strftime("%d/%m/%Y:%H:%M:%S %z")` (note `%m`, the month NUMBER,
exactly as in the source). -/
def fmtA (t : Timestamp) : List Char :=
  let f := civilOf t
  pad2 f.2.2.1 ++ '/' :: pad2 f.2.1 ++ '/' :: pad4 f.1 ++ ':' ::
    pad2 f.2.2.2.1 ++ ':' :: pad2 f.2.2.2.2.1 ++ ':' :: pad2 f.2.2.2.2.2 ++
    ' ' :: fmtOffset t.offset

/-- The replacement text of the second substitution in `process_line`:
`timeval.strftime("%b %d %H:%M:%S")`. -/
def fmtStart (t : Timestamp) : List Char :=
  let f := civilOf t
  monthAbbrevL f.2.1 ++ ' ' :: pad2 f.2.2.1 ++ ' ' ::
    pad2 f.2.2.2.1 ++ ':' :: pad2 f.2.2.2.2.1 ++ ':' :: pad2 f.2.2.2.2.2

/-- The full text substituted for a bracket match:
`'- - [{0}]'.format(timeval.strftime(fmt))`. -/
def replA (t : Timestamp) : List Char :=
  '-' :: ' ' :: '-' :: ' ' :: '[' :: (fmtA t ++ [']'])

/-- Fuel-driven worker for `subA`; each match consumes at least one
character, so `l.length` fuel always suffices. -/
def subAGo (t : Timestamp) : Nat → List Char → List Char
  | 0, l => l
  | fuel + 1, l =>
    match findA l with
    | none => l
    | some (s, e) => l.take s ++ replA t ++ subAGo t fuel (l.drop e)

/-- Model of `re.sub(r'- - \[.*\]', '- - [...]', line)`: replace every
(greedy, leftmost-first) match, resuming the scan after each replacement. -/
def subA (t : Timestamp) (l : List Char) : List Char := subAGo t l.length l

theorem subAGo_congr (t : Timestamp) :
    ∀ fuel1 fuel2 l, l.length ≤ fuel1 → l.length ≤ fuel2 →
      subAGo t fuel1 l = subAGo t fuel2 l := by
  intro fuel1
  induction fuel1 with
  | zero =>
    intro fuel2 l h1 h2
    have hnil : l = [] := List.length_eq_zero.mp (by omega)
    subst hnil
    cases fuel2 with
    | zero => rfl
    | succ f2 => simp [subAGo, findA]
  | succ f ih =>
    intro fuel2 l h1 h2
    cases fuel2 with
    | zero =>
      have hnil : l = [] := List.length_eq_zero.mp (by omega)
      subst hnil
      simp [subAGo, findA]
    | succ f2 =>
      simp only [subAGo]
      cases hf : findA l with
      | none => rfl
      | some se =>
        obtain ⟨s, e⟩ := se
        have hb := findA_bounds hf
        show l.take s ++ replA t ++ subAGo t f (l.drop e) =
          l.take s ++ replA t ++ subAGo t f2 (l.drop e)
        rw [ih f2 (l.drop e) (by simp only [List.length_drop]; omega)
          (by simp only [List.length_drop]; omega)]

theorem subA_of_none {t : Timestamp} {l : List Char} (h : findA l = none) :
    subA t l = l := by
  unfold subA
  cases hl : l with
  | nil => rfl
  | cons c r =>
    simp only [List.length_cons, subAGo]
    rw [← hl, h]

theorem subA_of_some {t : Timestamp} {l : List Char} {s e : Nat}
    (h : findA l = some (s, e)) :
    subA t l = l.take s ++ replA t ++ subA t (l.drop e) := by
  unfold subA
  have hb := findA_bounds h
  cases hl : l with
  | nil => rw [hl] at h; exact Option.noConfusion h
  | cons c r =>
    simp only [List.length_cons, subAGo]
    rw [← hl, h]
    show l.take s ++ replA t ++ subAGo t r.length (l.drop e) =
      l.take s ++ replA t ++ subAGo t (l.drop e).length (l.drop e)
    rw [subAGo_congr t r.length (l.drop e).length (l.drop e)
      (by rw [hl] at hb ⊢; simp only [List.length_drop, List.length_cons] at hb ⊢; omega)
      (by omega)]

/-- Fuel-driven worker for `findallBracket`. -/
def findallGo : Nat → List Char → List (List Char)
  | 0, _ => []
  | fuel + 1, l =>
    match findA l with
    | none => []
    | some (s, e) => (l.drop (s + 5)).take (e - s - 6) :: findallGo fuel (l.drop e)

/-- Model of `re.findall('- - \[(.*)\]', line)`: the list of the group
contents of each (greedy, leftmost-first, non-overlapping) match. -/
def findallBracket (l : List Char) : List (List Char) := findallGo l.length l

theorem findallGo_congr :
    ∀ fuel1 fuel2 l, l.length ≤ fuel1 → l.length ≤ fuel2 →
      findallGo fuel1 l = findallGo fuel2 l := by
  intro fuel1
  induction fuel1 with
  | zero =>
    intro fuel2 l h1 h2
    have hnil : l = [] := List.length_eq_zero.mp (by omega)
    subst hnil
    cases fuel2 with
    | zero => rfl
    | succ f2 => simp [findallGo, findA]
  | succ f ih =>
    intro fuel2 l h1 h2
    cases fuel2 with
    | zero =>
      have hnil : l = [] := List.length_eq_zero.mp (by omega)
      subst hnil
      simp [findallGo, findA]
    | succ f2 =>
      simp only [findallGo]
      cases hf : findA l with
      | none => rfl
      | some se =>
        obtain ⟨s, e⟩ := se
        have hb := findA_bounds hf
        show (l.drop (s + 5)).take (e - s - 6) :: findallGo f (l.drop e) =
          (l.drop (s + 5)).take (e - s - 6) :: findallGo f2 (l.drop e)
        rw [ih f2 (l.drop e) (by simp only [List.length_drop]; omega)
          (by simp only [List.length_drop]; omega)]

theorem findallBracket_of_none {l : List Char} (h : findA l = none) :
    findallBracket l = [] := by
  unfold findallBracket
  cases hl : l with
  | nil => rfl
  | cons c r =>
    simp only [List.length_cons, findallGo]
    rw [← hl, h]

theorem findallBracket_of_some {l : List Char} {s e : Nat}
    (h : findA l = some (s, e)) :
    findallBracket l = (l.drop (s + 5)).take (e - s - 6) :: findallBracket (l.drop e) := by
  unfold findallBracket
  have hb := findA_bounds h
  cases hl : l with
  | nil => rw [hl] at h; exact Option.noConfusion h
  | cons c r =>
    simp only [List.length_cons, findallGo]
    rw [← hl, h]
    show (l.drop (s + 5)).take (e - s - 6) :: findallGo r.length (l.drop e) =
      (l.drop (s + 5)).take (e - s - 6) :: findallGo (l.drop e).length (l.drop e)
    rw [findallGo_congr r.length (l.drop e).length (l.drop e)
      (by rw [hl] at hb ⊢; simp only [List.length_drop, List.length_cons] at hb ⊢; omega)
      (by omega)]

/-! ### `get_time` -/

/-- Model of `get_time`: extract the bracket matches with `re.findall`,
take element `[0]` (raising `IndexError` on an empty match list), and parse
it with `strptime`.  It never produces a default timestamp. -/
def get_timeL (l : List Char) : Except PyErr Timestamp :=
  match findallBracket l with
  | [] => .error .indexError
  | g :: _ => strptimeLog g

/-- `get_time` on a Lean string. -/
def get_time (s : String) : Except PyErr Timestamp := get_timeL s.data

/-! ### The prefix regex `^\w+\s\d{0,}...` of the second substitution

`process_line` runs `re.sub(r'^\w+\s\d+\s\d{2}:\d{2}:\d{2}', repl, line)`.
The pattern is anchored at the start of the string (no MULTILINE flag), so
it has at most one match, at position 0.  Because the `\w`, `\s` and `\d`
classes are pairwise disjoint on the separator positions, the regex
engine's greedy matching with backtracking is equivalent to the
deterministic maximal-run parse implemented here. -/

/-- Match a fixed sequence of character classes against the head of a
list. -/
def mSeq : List (Char → Bool) → List Char → Bool
  | [], _ => true
  | _ :: _, [] => false
  | p :: ps, c :: cs => p c && mSeq ps cs

/-- The classes of `\d{2}:\d{2}:\d{2}`. -/
def timePats : List (Char → Bool) :=
  [isDigitChar, isDigitChar, fun c => c == ':', isDigitChar, isDigitChar,
   fun c => c == ':', isDigitChar, isDigitChar]

/-- Match `\d{2}:\d{2}:\d{2}` at the head; consumes 8 characters. -/
def mTimeN (l : List Char) : Option Nat :=
  if mSeq timePats l then some 8 else none

/-- Greedy run of `inRun` characters, then one `stop` character, then
`next`; returns the total number of characters consumed.  Equivalent to
regex `X+Y` matching when the `inRun` and `stop` classes are disjoint. -/
def mRun (inRun stop : Char → Bool) (next : List Char → Option Nat) :
    List Char → Option Nat
  | [] => none
  | c :: cs =>
    if inRun c then (mRun inRun stop next cs).map (· + 1)
    else if stop c then (next cs).map (· + 1)
    else none

/-- Continuation after the first digit of `\d+`: the rest of the digit
run, one `\s`, then the time pattern. -/
def mDigitsPart : List Char → Option Nat := mRun isDigitChar isSpaceChar mTimeN

/-- Match `\d+\s\d{2}:\d{2}:\d{2}` at the head. -/
def mNum : List Char → Option Nat
  | [] => none
  | c :: cs => if isDigitChar c then (mDigitsPart cs).map (· + 1) else none

/-- Continuation after the first word character of `\w+`: the rest of the
word run, one `\s`, then the numeric part. -/
def mWordPart : List Char → Option Nat := mRun isWordChar isSpaceChar mNum

/-- Match of `^\w+\s\d+\s\d{2}:\d{2}:\d{2}` at position 0: the length of
the matched prefix, if the pattern matches. -/
def matchB : List Char → Option Nat
  | [] => none
  | c :: cs => if isWordChar c then (mWordPart cs).map (· + 1) else none

/-- Model of `re.sub(r'^\w+\s\d+\s\d{2}:\d{2}:\d{2}', repl, line)`: the
pattern is anchored, so at most the single match at position 0 is
replaced; if the pattern does not occur the line is returned unchanged. -/
def subB (t : Timestamp) (l : List Char) : List Char :=
  match matchB l with
  | none => l
  | some k => fmtStart t ++ l.drop k

/-! ### `process_line` -/

/-- Model of `process_line`: re-extract the timestamp with `get_time`,
convert it to US Pacific, then apply the two substitutions in source
order (the bracket rewrite, then the anchored prefix rewrite). -/
def process_lineL (l : List Char) : Except PyErr (List Char) :=
  match get_timeL l with
  | .error e => .error e
  | .ok t0 =>
    let timeval := pacConvert t0
    .ok (subB timeval (subA timeval l))

/-- `process_line` on a Lean string. -/
def process_line (s : String) : Except PyErr String :=
  (process_lineL s.data).map (fun l => String.mk l)

/-! ### `grep_file`: the Line Source

`grep_file` is a Python GENERATOR: calling it runs none of its body.  In
particular `re.compile(pattern)` does not run at construction; it runs
when the first line is requested (the first `next()`), and an invalid
pattern raises `re.error` there. -/

/-- A suspended generator returned by calling `grep_file(name, pattern)`:
no part of the body has executed yet. -/
structure LogGen where
  fileLines : List String
  pattern : String
deriving DecidableEq, Repr

/-- Model of the pattern-syntax validation done by `re.compile`, for the
fragment of regex syntax relevant here: an unterminated character class
`[...` or an unbalanced group `(`/`)` makes the pattern invalid (Python
raises `re.error`); other patterns compile.  A backslash escapes the next
character. -/
def reSyntaxOkAux : List Char → Nat → Bool → Bool
  | [], depth, inClass => !inClass && depth == 0
  | c :: r, depth, inClass =>
    if inClass then
      if c = ']' then reSyntaxOkAux r depth false
      else if c = '\\' then
        match r with
        | [] => false
        | _ :: r2 => reSyntaxOkAux r2 depth true
      else reSyntaxOkAux r depth true
    else if c = '\\' then
      match r with
      | [] => false
      | _ :: r2 => reSyntaxOkAux r2 depth false
    else if c = '[' then reSyntaxOkAux r depth true
    else if c = '(' then reSyntaxOkAux r (depth + 1) false
    else if c = ')' then
      match depth with
      | 0 => false
      | d + 1 => reSyntaxOkAux r d false
    else reSyntaxOkAux r depth false

/-- Whether `re.compile(pattern)` succeeds (see `reSyntaxOkAux`). -/
def reCompileOk (pattern : String) : Bool := reSyntaxOkAux pattern.data 0 false

/-- Model of calling `grep_file(name, pattern)`: a generator object is
returned and NO failure is possible at this point, whatever the pattern is;
the generator body (including `re.compile`) has not run. -/
def grep_file (fileLines : List String) (pattern : String) : Except PyErr LogGen :=
  .ok ⟨fileLines, pattern⟩

/-- Model of consuming the generator: the first `next()` first executes
`patexp = re.compile(pattern)` - raising `re.error` for an invalid
pattern, before any line is produced - and then the loop yields exactly
the lines containing a match of the pattern. -/
def LogGen.forceAll (search : String → String → Bool) (g : LogGen) :
    Except PyErr (List String) :=
  if reCompileOk g.pattern then .ok (g.fileLines.filter (search g.pattern))
  else .error .patternInvalid

/-! ### `get_average` and the interval list -/

/-- Model of `reduce(lambda a,b: a + b, lst)`: raises `TypeError` on an
empty list (modelled as `none`), otherwise folds addition from the left. -/
def pyReduceAdd : List Int → Option Int
  | [] => none
  | x :: xs => some (xs.foldl (· + ·) x)

/-- Model of `get_average`: `reduce(lambda a,b: a + b, lst) / len(lst)`.
`none` models the crash on an empty list (`reduce` with no initial value,
and division by `len == 0`).  Duration division is exact. -/
def get_average (lst : List Int) : Option ℚ :=
  match pyReduceAdd lst with
  | none => none
  | some s => some ((s : ℚ) / (lst.length : ℚ))

/-- Model of `diff = [a - b for b, a in zip(timeval[:-1], timeval[1:])]`:
the pairwise deltas of consecutive raw timestamps in file order.  Aware
datetime subtraction compares absolute instants, so each delta is a
difference of instants (seconds). -/
def pyDiff (ts : List Timestamp) : List Int :=
  (ts.dropLast.zip ts.tail).map (fun p => p.2.instant - p.1.instant)

/-- Specification-side definition (from the spec text, for comparison):
the sum of the pairwise deltas `t[i] - t[i-1]` over consecutive
timestamps in sequence order. -/
def specSumDeltas : List Timestamp → Int
  | a :: b :: r => (b.instant - a.instant) + specSumDeltas (b :: r)
  | _ => 0

/-! ### `main` -/

/-- One unit of printed output of a run, in order.  `line` is a matching
line printed after rewriting (`print(line, end='')`); `msg` is a fixed
diagnostic printed with `print`; `counted` and `averageLine` model the two
summary prints (pattern, match count, and the computed average). -/
inductive OutItem where
  | line (s : String)
  | msg (s : String)
  | counted (pattern : String) (count : Nat)
  | averageLine (avg : ℚ)
deriving DecidableEq, Repr

/-- The loop over matching lines in `main`: for each line, append
`get_time(l)` to `timeval`, then print `process_line(l)`.  An uncaught
exception from either call aborts the run; lines already printed stay
printed.  Returns the printed output and either the collected timestamp
list or the exception. -/
def mainLoop : List String → List OutItem × Except PyErr (List Timestamp)
  | [] => ([], .ok [])
  | l :: ls =>
    match get_time l with
    | .error e => ([], .error e)
    | .ok t =>
      match process_line l with
      | .error e => ([], .error e)
      | .ok pl =>
        let rest := mainLoop ls
        (.line pl :: rest.1, rest.2.map (fun ts => t :: ts))

/-- The observable outcome of a run of `main`: everything printed to
stdout, and `some code` for a normal return of `main` (passed to
`sys.exit`) or `none` for an uncaught exception. -/
structure RunOutcome where
  output : List OutItem
  result : Option Int
deriving DecidableEq, Repr

/-- The reporting code of `main` after the loop (`# Compute average`
onward): report the average (count > 1), the single match message
(count == 1), or the no-match diagnostic (count == 0), with the
corresponding return value of `main`. -/
def reportPhase (pattern : String) (printed : List OutItem)
    (timeval : List Timestamp) : RunOutcome :=
  if 0 < timeval.length then
    if 1 < timeval.length then
      match get_average (pyDiff timeval) with
      | some average =>
        { output := printed ++ [.counted pattern timeval.length, .averageLine average],
          result := some 0 }
      | none => { output := printed, result := none }
    else
      { output := printed ++ [.msg "Found only one matching line"],
        result := some 0 }
  else
    { output := printed ++
        [.msg ("Did not find the \'" ++ pattern ++ "\' you provided.")],
      result := some (-1) }

/-- Model of `main` after argument parsing, for a compiled pattern whose
search function is `m`: check file existence, filter the file lines, loop
over the matching lines, then run the report phase. -/
def pyMain (fileExists : Bool) (fileLines : List String) (m : String → Bool)
    (pattern : String) : RunOutcome :=
  if fileExists = false then
    { output := [.msg "File does not exist",
                 .msg "Check the input provided again and enter a valid file"],
      result := some (-1) }
  else
    match mainLoop (fileLines.filter m) with
    | (printed, .error _) => { output := printed, result := none }
    | (printed, .ok timeval) => reportPhase pattern printed timeval

/-! ### Lemmas about the anchored prefix matcher

The separator character `-` of the bracket replacement text satisfies none
of the classes the prefix pattern is built from, so the prefix matcher
cannot read past a `-`: its result is unchanged by editing the text at or
after the first `-`. -/

theorem mSeq_congr_dash {ps : List (Char → Bool)}
    (hps : ∀ p ∈ ps, p '-' = false) :
    ∀ u v w : List Char, mSeq ps (u ++ '-' :: v) = mSeq ps (u ++ '-' :: w) := by
  induction ps with
  | nil => intro u v w; rfl
  | cons p ps0 ih =>
    intro u v w
    cases u with
    | nil =>
      have hp : p '-' = false := hps p (by simp)
      simp [mSeq, hp]
    | cons c u0 =>
      have hrest : ∀ q ∈ ps0, q '-' = false := fun q hq => hps q (by simp [hq])
      simp only [List.cons_append, mSeq, List.append_eq]
      rw [ih hrest u0 v w]

theorem mSeq_no_dash {ps : List (Char → Bool)} {l : List Char}
    (hps : ∀ p ∈ ps, p '-' = false) (h : mSeq ps l = true) :
    ∀ j, j < ps.length → l.get? j ≠ some '-' := by
  induction ps generalizing l with
  | nil => intro j hj; simp at hj
  | cons p ps0 ih =>
    intro j hj
    cases l with
    | nil => simp [mSeq] at h
    | cons c cs =>
      simp only [mSeq, Bool.and_eq_true] at h
      obtain ⟨hc, hrest⟩ := h
      cases j with
      | zero =>
        intro hcontra
        simp only [List.get?] at hcontra
        cases hcontra
        rw [hps p (by simp)] at hc
        exact Bool.noConfusion hc
      | succ j0 =>
        have hr : ∀ q ∈ ps0, q '-' = false := fun q hq => hps q (by simp [hq])
        simpa using ih hr hrest j0 (by simpa using hj)

theorem mSeq_le_length {ps : List (Char → Bool)} {l : List Char}
    (h : mSeq ps l = true) : ps.length ≤ l.length := by
  induction ps generalizing l with
  | nil => simp
  | cons p ps0 ih =>
    cases l with
    | nil => simp [mSeq] at h
    | cons c cs =>
      simp only [mSeq, Bool.and_eq_true] at h
      simpa using ih h.2

theorem timePats_dash : ∀ p ∈ timePats, p '-' = false := by decide

theorem mTimeN_congr_dash :
    ∀ u v w : List Char, mTimeN (u ++ '-' :: v) = mTimeN (u ++ '-' :: w) := by
  intro u v w
  unfold mTimeN
  rw [mSeq_congr_dash timePats_dash u v w]

theorem mTimeN_no_dash {l : List Char} {n : Nat} (h : mTimeN l = some n) :
    ∀ j, j < n → l.get? j ≠ some '-' := by
  unfold mTimeN at h
  split at h
  case isTrue hseq =>
    cases h
    intro j hj
    exact mSeq_no_dash timePats_dash hseq j (by simpa [timePats] using hj)
  case isFalse => cases h

theorem mTimeN_le_length {l : List Char} {n : Nat} (h : mTimeN l = some n) :
    n ≤ l.length := by
  unfold mTimeN at h
  split at h
  case isTrue hseq =>
    cases h
    have := mSeq_le_length hseq
    simpa [timePats] using this
  case isFalse => cases h

theorem mRun_congr_dash {inRun stop : Char → Bool} {next : List Char → Option Nat}
    (hin : inRun '-' = false) (hstop : stop '-' = false)
    (hnext : ∀ u v w : List Char, next (u ++ '-' :: v) = next (u ++ '-' :: w)) :
    ∀ u v w : List Char,
      mRun inRun stop next (u ++ '-' :: v) = mRun inRun stop next (u ++ '-' :: w) := by
  intro u
  induction u with
  | nil => intro v w; simp [mRun, hin, hstop]
  | cons c u0 ih =>
    intro v w
    simp only [List.cons_append, mRun, List.append_eq]
    rw [ih v w, hnext u0 v w]

theorem mRun_no_dash {inRun stop : Char → Bool} {next : List Char → Option Nat}
    (hin : inRun '-' = false) (hstop : stop '-' = false)
    (hnext : ∀ l n, next l = some n → ∀ j, j < n → l.get? j ≠ some '-') :
    ∀ l n, mRun inRun stop next l = some n → ∀ j, j < n → l.get? j ≠ some '-' := by
  intro l
  induction l with
  | nil => intro n h; simp [mRun] at h
  | cons c cs ih =>
    intro n h j hj
    simp only [mRun] at h
    by_cases hc : inRun c
    · rw [if_pos hc] at h
      cases hm : mRun inRun stop next cs with
      | none => rw [hm] at h; cases h
      | some n0 =>
        rw [hm] at h
        simp only [Option.map_some', Option.some.injEq] at h
        subst h
        cases j with
        | zero =>
          intro hcontra
          simp only [List.get?] at hcontra
          cases hcontra
          rw [hin] at hc
          exact Bool.noConfusion hc
        | succ j0 =>
          simpa using ih n0 hm j0 (by omega)
    · rw [if_neg hc] at h
      by_cases hs : stop c
      · rw [if_pos hs] at h
        cases hm : next cs with
        | none => rw [hm] at h; cases h
        | some n0 =>
          rw [hm] at h
          simp only [Option.map_some', Option.some.injEq] at h
          subst h
          cases j with
          | zero =>
            intro hcontra
            simp only [List.get?] at hcontra
            cases hcontra
            rw [hstop] at hs
            exact Bool.noConfusion hs
          | succ j0 =>
            simpa using hnext cs n0 hm j0 (by omega)
      · rw [if_neg hs] at h
        cases h

theorem mRun_le_length {inRun stop : Char → Bool} {next : List Char → Option Nat}
    (hnext : ∀ l n, next l = some n → n ≤ l.length) :
    ∀ l n, mRun inRun stop next l = some n → n ≤ l.length := by
  intro l
  induction l with
  | nil => intro n h; simp [mRun] at h
  | cons c cs ih =>
    intro n h
    simp only [mRun] at h
    by_cases hc : inRun c
    · rw [if_pos hc] at h
      cases hm : mRun inRun stop next cs with
      | none => rw [hm] at h; cases h
      | some n0 =>
        rw [hm] at h
        simp only [Option.map_some', Option.some.injEq] at h
        subst h
        have := ih n0 hm
        simp only [List.length_cons]
        omega
    · rw [if_neg hc] at h
      by_cases hs : stop c
      · rw [if_pos hs] at h
        cases hm : next cs with
        | none => rw [hm] at h; cases h
        | some n0 =>
          rw [hm] at h
          simp only [Option.map_some', Option.some.injEq] at h
          subst h
          have := hnext cs n0 hm
          simp only [List.length_cons]
          omega
      · rw [if_neg hs] at h
        cases h

theorem isWordChar_dash : isWordChar '-' = false := by decide

theorem isSpaceChar_dash : isSpaceChar '-' = false := by decide

theorem isDigitChar_dash : isDigitChar '-' = false := by decide

theorem mNum_congr_dash :
    ∀ u v w : List Char, mNum (u ++ '-' :: v) = mNum (u ++ '-' :: w) := by
  intro u v w
  cases u with
  | nil => simp [mNum, isDigitChar_dash]
  | cons c u0 =>
    simp only [List.cons_append, mNum, List.append_eq, mDigitsPart]
    rw [mRun_congr_dash isDigitChar_dash isSpaceChar_dash mTimeN_congr_dash u0 v w]

theorem mNum_no_dash {l : List Char} {n : Nat} (h : mNum l = some n) :
    ∀ j, j < n → l.get? j ≠ some '-' := by
  cases l with
  | nil => simp [mNum] at h
  | cons c cs =>
    simp only [mNum] at h
    by_cases hc : isDigitChar c
    · rw [if_pos hc] at h
      cases hm : mDigitsPart cs with
      | none => rw [hm] at h; cases h
      | some n0 =>
        rw [hm] at h
        simp only [Option.map_some', Option.some.injEq] at h
        subst h
        intro j hj
        cases j with
        | zero =>
          intro hcontra
          simp only [List.get?] at hcontra
          cases hcontra
          rw [isDigitChar_dash] at hc
          exact Bool.noConfusion hc
        | succ j0 =>
          have hd := mRun_no_dash isDigitChar_dash isSpaceChar_dash
            (fun l n h => mTimeN_no_dash h) cs n0 hm j0 (by omega)
          simpa using hd
    · rw [if_neg hc] at h
      cases h

theorem mNum_le_length {l : List Char} {n : Nat} (h : mNum l = some n) :
    n ≤ l.length := by
  cases l with
  | nil => simp [mNum] at h
  | cons c cs =>
    simp only [mNum] at h
    by_cases hc : isDigitChar c
    · rw [if_pos hc] at h
      cases hm : mDigitsPart cs with
      | none => rw [hm] at h; cases h
      | some n0 =>
        rw [hm] at h
        simp only [Option.map_some', Option.some.injEq] at h
        subst h
        have := mRun_le_length (fun l n h => mTimeN_le_length h) cs n0 hm
        simp only [List.length_cons]
        omega
    · rw [if_neg hc] at h
      cases h

/-- Editing a line at or after its first `-` does not change the result of
the anchored prefix matcher: the pattern is matched against the text
before that `-`. -/
theorem matchB_congr_dash :
    ∀ u v w : List Char, matchB (u ++ '-' :: v) = matchB (u ++ '-' :: w) := by
  intro u v w
  cases u with
  | nil => simp [matchB, isWordChar_dash]
  | cons c u0 =>
    simp only [List.cons_append, matchB, List.append_eq, mWordPart]
    rw [mRun_congr_dash isWordChar_dash isSpaceChar_dash mNum_congr_dash u0 v w]

/-- The prefix matched by `matchB` contains no `-` character. -/
theorem matchB_no_dash {l : List Char} {k : Nat} (h : matchB l = some k) :
    ∀ j, j < k → l.get? j ≠ some '-' := by
  cases l with
  | nil => simp [matchB] at h
  | cons c cs =>
    simp only [matchB] at h
    by_cases hc : isWordChar c
    · rw [if_pos hc] at h
      cases hm : mWordPart cs with
      | none => rw [hm] at h; cases h
      | some n0 =>
        rw [hm] at h
        simp only [Option.map_some', Option.some.injEq] at h
        subst h
        intro j hj
        cases j with
        | zero =>
          intro hcontra
          simp only [List.get?] at hcontra
          cases hcontra
          rw [isWordChar_dash] at hc
          exact Bool.noConfusion hc
        | succ j0 =>
          have hd := mRun_no_dash isWordChar_dash isSpaceChar_dash
            (fun l n h => mNum_no_dash h) cs n0 hm j0 (by omega)
          simpa using hd
    · rw [if_neg hc] at h
      cases h

theorem matchB_le_length {l : List Char} {k : Nat} (h : matchB l = some k) :
    k ≤ l.length := by
  cases l with
  | nil => simp [matchB] at h
  | cons c cs =>
    simp only [matchB] at h
    by_cases hc : isWordChar c
    · rw [if_pos hc] at h
      cases hm : mWordPart cs with
      | none => rw [hm] at h; cases h
      | some n0 =>
        rw [hm] at h
        simp only [Option.map_some', Option.some.injEq] at h
        subst h
        have := mRun_le_length (fun l n h => mNum_le_length h) cs n0 hm
        simp only [List.length_cons]
        omega
    · rw [if_neg hc] at h
      cases h

/-! ### Independence of the two substitutions of `process_line` -/

theorem bracketOpen_head {l : List Char} (h : l.take 5 = bracketOpen) :
    ∃ v, l = '-' :: v := by
  cases l with
  | nil => simp [bracketOpen] at h
  | cons c r =>
    refine ⟨r, ?_⟩
    have ht : (c :: r).take 5 = c :: r.take 4 := rfl
    rw [ht] at h
    simp only [bracketOpen, List.cons.injEq] at h
    rw [h.1]

/-- The first bracket match begins with a `-`, and the bracket replacement
text begins with a `-`, so replacing bracket matches does not change the
result of the anchored prefix matcher: the prefix pattern is effectively
matched against the original line. -/
theorem matchB_subA (t : Timestamp) (l : List Char) :
    matchB (subA t l) = matchB l := by
  cases hf : findA l with
  | none => rw [subA_of_none hf]
  | some se =>
    obtain ⟨s, e⟩ := se
    obtain ⟨h1, _⟩ := findA_spec hf
    obtain ⟨v, hv⟩ := bracketOpen_head (matchAAt_take5 h1)
    have hl : l = l.take s ++ '-' :: v := by
      conv_lhs => rw [← List.take_append_drop s l]
      rw [hv]
    rw [subA_of_some hf]
    have hshape : l.take s ++ replA t ++ subA t (l.drop e) =
        l.take s ++ '-' :: (' ' :: '-' :: ' ' :: '[' :: (fmtA t ++ [']']) ++
          subA t (l.drop e)) := by
      simp [replA, List.append_assoc]
    rw [hshape]
    rw [matchB_congr_dash (l.take s) _ v]
    rw [← hl]

theorem digitCh_ne_dash (n : Nat) : digitCh n ≠ '-' := by
  unfold digitCh
  split <;> decide

theorem pad2_not_dash (n : Int) : '-' ∉ pad2 n := by
  intro h
  simp only [pad2, List.mem_cons, List.not_mem_nil, or_false] at h
  rcases h with h | h
  · exact digitCh_ne_dash _ h.symm
  · exact digitCh_ne_dash _ h.symm

theorem monthAbbrevL_not_dash (m : Int) : '-' ∉ monthAbbrevL m := by
  unfold monthAbbrevL
  split <;> decide

/-- The replacement text of the prefix substitution (`"%b %d %H:%M:%S"`)
contains no `-` character. -/
theorem fmtStart_no_dash (t : Timestamp) : ∀ c ∈ fmtStart t, c ≠ '-' := by
  intro c hc hEq
  subst hEq
  simp [fmtStart, pad2_not_dash, monthAbbrevL_not_dash] at hc

/-- Prepending text that contains no `-` commutes with the bracket
substitution. -/
theorem subA_append {p w : List Char} (t : Timestamp) (hp : ∀ c ∈ p, c ≠ '-') :
    subA t (p ++ w) = p ++ subA t w := by
  cases hf : findA w with
  | none =>
    have hn : findA (p ++ w) = none := by rw [findA_append hp, hf]; rfl
    rw [subA_of_none hn, subA_of_none hf]
  | some se =>
    obtain ⟨s, e⟩ := se
    have hpw : findA (p ++ w) = some (s + p.length, e + p.length) := by
      rw [findA_append hp, hf]; rfl
    rw [subA_of_some hpw, subA_of_some hf]
    rw [Nat.add_comm s p.length, Nat.add_comm e p.length]
    rw [List.take_append, List.drop_append]
    simp [List.append_assoc]

/-- The two substitutions of `process_line` commute: the outcome is as if
each pattern were matched and replaced against the original line. -/
theorem subB_subA_comm (t : Timestamp) (l : List Char) :
    subB t (subA t l) = subA t (subB t l) := by
  cases hB : matchB l with
  | none =>
    have hBA : matchB (subA t l) = none := by rw [matchB_subA, hB]
    simp only [subB, hB, hBA]
  | some k =>
    have hBA : matchB (subA t l) = some k := by rw [matchB_subA, hB]
    simp only [subB, hB, hBA]
    cases hf : findA l with
    | none =>
      rw [subA_of_none hf]
      rw [subA_append t (fmtStart_no_dash t)]
      rw [subA_of_none (findA_none_drop hf k)]
    | some se =>
      obtain ⟨s, e⟩ := se
      obtain ⟨h1, _⟩ := findA_spec hf
      obtain ⟨hb1, hb2⟩ := findA_bounds hf
      obtain ⟨v, hv⟩ := bracketOpen_head (matchAAt_take5 h1)
      have hgs : l.get? s = some '-' := by
        have hh := List.get?_drop l s 0
        rw [hv] at hh
        simpa using hh.symm
      have hks : k ≤ s := by
        by_contra hcon
        exact matchB_no_dash hB s (by omega) hgs
      rw [subA_of_some hf]
      rw [subA_append t (fmtStart_no_dash t)]
      rw [subA_of_some (findA_drop hks hf)]
      have hd1 : (l.take s ++ replA t ++ subA t (l.drop e)).drop k =
          (l.take s).drop k ++ (replA t ++ subA t (l.drop e)) := by
        rw [List.append_assoc]
        rw [List.drop_append_of_le_length]
        simp only [List.length_take]
        omega
      rw [hd1]
      have hd2 : (l.take s).drop k = (l.drop k).take (s - k) := by
        rw [List.drop_take]
      have hd3 : (l.drop k).drop (e - k) = l.drop e := by
        rw [List.drop_drop]
        have hke : k + (e - k) = e := by omega
        rw [hke]
      rw [hd2, hd3]
      simp [List.append_assoc]

/-- If the anchored prefix pattern does not occur in the line, the second
substitution silently returns the line unchanged. -/
theorem subB_no_match {t : Timestamp} {l : List Char} (h : matchB l = none) :
    subB t l = l := by
  simp only [subB, h]

/-! ### Aggregation lemmas -/

theorem pyDiff_cons (a b : Timestamp) (r : List Timestamp) :
    pyDiff (a :: b :: r) = (b.instant - a.instant) :: pyDiff (b :: r) := rfl

theorem pyDiff_length (ts : List Timestamp) :
    (pyDiff ts).length = ts.length - 1 := by
  simp [pyDiff]

theorem specSumDeltas_cons (a b : Timestamp) (r : List Timestamp) :
    specSumDeltas (a :: b :: r) = (b.instant - a.instant) + specSumDeltas (b :: r) := rfl

/-- The consecutive-delta list built by `main` sums to the
specification's sum of pairwise deltas. -/
theorem pyDiff_sum : ∀ ts : List Timestamp, (pyDiff ts).sum = specSumDeltas ts
  | [] => by simp [pyDiff, specSumDeltas]
  | [a] => by simp [pyDiff, specSumDeltas]
  | a :: b :: r => by
    rw [pyDiff_cons, List.sum_cons, pyDiff_sum (b :: r), specSumDeltas_cons]

/-- The deltas depend only on the absolute instants, not on the attached
UTC offsets. -/
theorem pyDiff_congr_instants :
    ∀ ts ts2 : List Timestamp,
      ts.map Timestamp.instant = ts2.map Timestamp.instant → pyDiff ts = pyDiff ts2
  | [], [], _ => rfl
  | [], _ :: _, h => by simp at h
  | _ :: _, [], h => by simp at h
  | [a], [c], _ => rfl
  | [a], c :: d :: r2, h => by simp at h
  | a :: b :: r, [c], h => by simp at h
  | a :: b :: r, c :: d :: r2, h => by
    simp only [List.map_cons, List.cons.injEq] at h
    obtain ⟨hac, hbd, hr⟩ := h
    rw [pyDiff_cons, pyDiff_cons]
    rw [pyDiff_congr_instants (b :: r) (d :: r2) (by simp [hbd, hr])]
    rw [hac, hbd]

theorem foldl_add_eq_sum (x : Int) (xs : List Int) :
    xs.foldl (· + ·) x = x + xs.sum := by
  induction xs generalizing x with
  | nil => simp
  | cons y ys ih => rw [List.foldl_cons, ih, List.sum_cons]; ring

theorem pyReduceAdd_eq_sum {lst : List Int} (h : lst ≠ []) :
    pyReduceAdd lst = some lst.sum := by
  cases lst with
  | nil => exact absurd rfl h
  | cons x xs =>
    simp only [pyReduceAdd, Option.some.injEq, List.sum_cons]
    exact foldl_add_eq_sum x xs

theorem get_average_eq {lst : List Int} (h : lst ≠ []) :
    get_average lst = some ((lst.sum : ℚ) / (lst.length : ℚ)) := by
  unfold get_average
  rw [pyReduceAdd_eq_sum h]

/-- Unfolding of a run that completes the loop normally. -/
theorem pyMain_ok {fileLines : List String} {m : String → Bool} {pattern : String}
    {printed : List OutItem} {ts : List Timestamp}
    (hloop : mainLoop (fileLines.filter m) = (printed, .ok ts)) :
    pyMain true fileLines m pattern = reportPhase pattern printed ts := by
  unfold pyMain
  rw [if_neg (by decide), hloop]

/-! ### Claim theorems -/

/-- C9: converting a Timestamp to the target timezone (US Pacific) and
converting the result back to UTC yields the same absolute instant;
timezone conversion preserves the instant and changes only the display
offset. -/
theorem c9_timezone_roundtrip (t : Timestamp) :
    (astimezoneTo utcOffsetFn (astimezoneTo pacificOffset t)).instant = t.instant ∧
    (astimezoneTo pacificOffset t).instant = t.instant ∧
    pacConvert t = astimezoneTo pacificOffset t :=
  ⟨rfl, rfl, rfl⟩

/-- C10: under the guard `count > 1` the delta list has length
`count - 1 ≥ 1`, so `get_average` (the `reduce` over the list and the
division by its length) is well defined: it cannot hit the empty-sequence
failure of `reduce` nor divide by zero. -/
theorem c10_average_welldefined (ts : List Timestamp) (h : 1 < ts.length) :
    (pyDiff ts).length = ts.length - 1 ∧ 1 ≤ (pyDiff ts).length ∧
    (get_average (pyDiff ts)).isSome = true := by
  have hl := pyDiff_length ts
  refine ⟨hl, by omega, ?_⟩
  have hne : pyDiff ts ≠ [] := by
    intro hc
    rw [hc] at hl
    simp at hl
    omega
  rw [get_average_eq hne]
  rfl

theorem c10_average_welldefined_witness :
    (pyDiff [(⟨0, 0⟩ : Timestamp), ⟨10, 3600⟩]).length = [(⟨0, 0⟩ : Timestamp), ⟨10, 3600⟩].length - 1 ∧
    1 ≤ (pyDiff [(⟨0, 0⟩ : Timestamp), ⟨10, 3600⟩]).length ∧
    (get_average (pyDiff [(⟨0, 0⟩ : Timestamp), ⟨10, 3600⟩])).isSome = true :=
  c10_average_welldefined [⟨0, 0⟩, ⟨10, 3600⟩] (by decide)

/-- C8: when the file does not exist, the run prints a two-line diagnostic
and exits with status -1; the outcome does not depend on the file lines or
the pattern, so no line of input is read. -/
theorem c8_missing_file (fileLines : List String) (m : String → Bool) (pattern : String) :
    pyMain false fileLines m pattern =
      { output := [.msg "File does not exist",
                   .msg "Check the input provided again and enter a valid file"],
        result := some (-1) } ∧
    (pyMain false fileLines m pattern).output.length = 2 ∧
    (pyMain false fileLines m pattern).result = some (-1) :=
  ⟨rfl, rfl, rfl⟩

theorem takeWhile_get_bracket {p : Char → Bool} {w : List Char} {i : Nat}
    (h : (w.takeWhile p).get? i = some ']') : w.get? i = some ']' := by
  obtain ⟨t, ht⟩ := List.takeWhile_prefix p (l := w)
  have hlt : i < (w.takeWhile p).length := by
    rcases List.get?_eq_some.mp h with ⟨hl, _⟩
    exact hl
  rw [← ht, List.get?_append hlt]
  exact h

theorem matchAAt_decompose {w : List Char} {n : Nat} (h : matchAAt w = some n) :
    w.take 5 = bracketOpen ∧ ∃ i, n = 6 + i ∧ (w.drop 5).get? i = some ']' := by
  unfold matchAAt at h
  split at h
  case isTrue htake =>
    cases hlb : lastBracketIdx ((w.drop 5).takeWhile (fun c => c != '\n')) with
    | none => rw [hlb] at h; cases h
    | some i =>
      rw [hlb] at h
      cases h
      exact ⟨htake, i, rfl, takeWhile_get_bracket (lastBracketIdx_get hlb)⟩
  case isFalse => cases h

/-- C6: on a line with no occurrence of the bracketed timestamp pattern,
the match list of `re.findall` is empty and `get_time` fails with the
index-out-of-range error on that empty list; it never silently produces a
default timestamp. -/
theorem c6_extraction_failed (l : List Char)
    (h : ∀ j, j < l.length → matchAAt (List.drop j l) = none) :
    findallBracket l = [] ∧ get_timeL l = .error .indexError := by
  have hfa : findA l = none := by
    cases hf : findA l with
    | none => rfl
    | some se =>
      obtain ⟨s, e⟩ := se
      obtain ⟨h1, _⟩ := findA_spec hf
      obtain ⟨hb1, hb2⟩ := findA_bounds hf
      rw [h s (by omega)] at h1
      exact Option.noConfusion h1
  refine ⟨findallBracket_of_none hfa, ?_⟩
  unfold get_timeL
  rw [findallBracket_of_none hfa]

theorem c6_extraction_failed_witness :
    findallBracket "hello foo\n".data = [] ∧
    get_timeL "hello foo\n".data = .error .indexError :=
  c6_extraction_failed "hello foo\n".data (by decide)

/-- C7 fails on the code: `grep_file` is a generator, so calling it
performs no work at all; with the invalid pattern `[` the construction
succeeds and returns a generator object, and the `re.error` (the
PatternInvalid failure) is raised only when the first line is requested. -/
theorem c7_counterexample :
    reCompileOk "[" = false ∧
    grep_file ["abc"] "[" = .ok ⟨["abc"], "["⟩ ∧
    grep_file ["abc"] "[" ≠ .error .patternInvalid ∧
    LogGen.forceAll (fun _ _ => true) ⟨["abc"], "["⟩ = .error .patternInvalid := by
  refine ⟨by decide, rfl, ?_, rfl⟩
  intro hc
  exact Except.noConfusion hc

/-- C7 (amended): for an invalid pattern, constructing the Line Source
succeeds (no failure is signalled at construction), and the PatternInvalid
failure is signalled when the first line is requested, before any line is
produced. -/
theorem c7_pattern_invalid_lazy (fileLines : List String) (pattern : String)
    (search : String → String → Bool) (h : reCompileOk pattern = false) :
    grep_file fileLines pattern = .ok ⟨fileLines, pattern⟩ ∧
    LogGen.forceAll search ⟨fileLines, pattern⟩ = .error .patternInvalid := by
  refine ⟨rfl, ?_⟩
  unfold LogGen.forceAll
  simp [h]

theorem c7_pattern_invalid_lazy_witness :
    grep_file ["abc"] "(" = .ok ⟨["abc"], "("⟩ ∧
    LogGen.forceAll (fun _ _ => true) ⟨["abc"], "("⟩ = .error .patternInvalid :=
  c7_pattern_invalid_lazy ["abc"] "(" (fun _ _ => true) (by decide)

/-- C2: when the pattern matches zero lines of the file, the run prints
exactly the diagnostic referencing the pattern and returns -1; no average
item is ever printed. -/
theorem c2_zero_matches (fileLines : List String) (m : String → Bool)
    (pattern : String) (h : fileLines.filter m = []) :
    pyMain true fileLines m pattern =
      { output := [.msg ("Did not find the \'" ++ pattern ++ "\' you provided.")],
        result := some (-1) } ∧
    (∃ pre suf : List Char,
      ("Did not find the \'" ++ pattern ++ "\' you provided.").data =
        pre ++ pattern.data ++ suf) ∧
    (∀ v : ℚ, OutItem.averageLine v ∉ (pyMain true fileLines m pattern).output) := by
  have hmain : pyMain true fileLines m pattern =
      { output := [.msg ("Did not find the \'" ++ pattern ++ "\' you provided.")],
        result := some (-1) } := by
    have hloop : mainLoop (fileLines.filter m) = ([], .ok []) := by rw [h]; rfl
    rw [pyMain_ok hloop]
    rfl
  refine ⟨hmain, ⟨"Did not find the \'".data, "\' you provided.".data, ?_⟩, ?_⟩
  · rw [String.data_append, String.data_append]
  · intro v hv
    rw [hmain] at hv
    simp at hv

theorem c2_zero_matches_witness :
    pyMain true ["alpha beta\n"] (fun _ => false) "zzz" =
      { output := [.msg ("Did not find the \'" ++ "zzz" ++ "\' you provided.")],
        result := some (-1) } ∧
    (∃ pre suf : List Char,
      ("Did not find the \'" ++ "zzz" ++ "\' you provided.").data =
        pre ++ "zzz".data ++ suf) ∧
    (∀ v : ℚ,
      OutItem.averageLine v ∉ (pyMain true ["alpha beta\n"] (fun _ => false) "zzz").output) :=
  c2_zero_matches ["alpha beta\n"] (fun _ => false) "zzz" rfl

/-- C5: when the line contains at least one bracket-pattern occurrence,
`get_time` parses exactly the group `time_log[0]` of the first (leftmost,
greedy) match: the pattern matches at no earlier position, the match
opens with `- - [` at its start position, the extracted group is the text
right after that first `- - [`, and it extends to a closing `]`. -/
theorem c5_first_occurrence (l g : List Char) (gs : List (List Char))
    (h : findallBracket l = g :: gs) :
    get_timeL l = strptimeLog g ∧
    ∃ s : Nat,
      (∀ j, j < s → matchAAt (List.drop j l) = none) ∧
      (List.drop s l).take 5 = bracketOpen ∧
      (List.drop (s + 5) l).take g.length = g ∧
      l.get? (s + 5 + g.length) = some ']' := by
  have hget : get_timeL l = strptimeLog g := by
    unfold get_timeL
    rw [h]
  refine ⟨hget, ?_⟩
  cases hf : findA l with
  | none => rw [findallBracket_of_none hf] at h; exact List.noConfusion h
  | some se =>
    obtain ⟨s, e⟩ := se
    rw [findallBracket_of_some hf] at h
    obtain ⟨h1, h2⟩ := findA_spec hf
    obtain ⟨hb1, hb2⟩ := findA_bounds hf
    obtain ⟨htake5, i, hi, hclose⟩ := matchAAt_decompose h1
    have hie : i = e - s - 6 := by omega
    have hg : g = (List.drop (s + 5) l).take (e - s - 6) := by
      have := congrArg (fun x => x.head?) h
      simpa using this.symm
    have hglen : g.length = e - s - 6 := by
      rw [hg]
      simp only [List.length_take, List.length_drop]
      omega
    refine ⟨s, h2, htake5, ?_, ?_⟩
    · rw [hglen, hg]
    · have hdd : (List.drop s l).drop 5 = List.drop (s + 5) l := by
        rw [List.drop_drop]
      rw [hdd] at hclose
      have hgd := List.get?_drop l (s + 5) i
      have higl : g.length = i := by omega
      rw [higl, ← hgd]
      exact hclose

theorem c5_first_occurrence_witness :
    get_timeL "x - - [A] y\n".data = strptimeLog ['A'] ∧
    ∃ s : Nat,
      (∀ j, j < s → matchAAt (List.drop j "x - - [A] y\n".data) = none) ∧
      (List.drop s "x - - [A] y\n".data).take 5 = bracketOpen ∧
      (List.drop (s + 5) "x - - [A] y\n".data).take (['A'] : List Char).length = ['A'] ∧
      "x - - [A] y\n".data.get? (s + 5 + (['A'] : List Char).length) = some ']' :=
  c5_first_occurrence "x - - [A] y\n".data ['A'] [] rfl

/-- C1: in a run whose loop completes with `count ≥ 2` extracted
timestamps, the reported average equals the sum of the pairwise deltas
`t[i] - t[i-1]` of the raw extracted timestamps in file order, divided by
`count - 1`; and the value depends only on the absolute instants, not on
the lines' UTC offsets. -/
theorem c1_average (fileLines : List String) (m : String → Bool) (pattern : String)
    (printed : List OutItem) (ts : List Timestamp)
    (hloop : mainLoop (fileLines.filter m) = (printed, .ok ts))
    (hlen : 2 ≤ ts.length) :
    pyMain true fileLines m pattern =
      { output := printed ++ [.counted pattern ts.length,
          .averageLine ((specSumDeltas ts : ℚ) / ((ts.length : ℚ) - 1))],
        result := some 0 } ∧
    (∀ ts2 : List Timestamp,
      ts2.map Timestamp.instant = ts.map Timestamp.instant →
        get_average (pyDiff ts2) = get_average (pyDiff ts)) := by
  have hlendiff := pyDiff_length ts
  have hne : pyDiff ts ≠ [] := by
    intro hc
    rw [hc] at hlendiff
    simp at hlendiff
    omega
  have havg : get_average (pyDiff ts) =
      some ((specSumDeltas ts : ℚ) / ((ts.length : ℚ) - 1)) := by
    rw [get_average_eq hne, pyDiff_sum, hlendiff]
    have hcast : ((ts.length - 1 : Nat) : ℚ) = (ts.length : ℚ) - 1 := by
      have h1 : 1 ≤ ts.length := by omega
      push_cast [h1]
      ring
    rw [hcast]
  constructor
  · rw [pyMain_ok hloop]
    unfold reportPhase
    rw [if_pos (by omega), if_pos (by omega), havg]
  · intro ts2 h2
    rw [pyDiff_congr_instants ts2 ts h2]

theorem c1_average_witness :
    pyMain true
        ["A - - [01/Jan/2020:00:00:00 +0000] foo\n",
         "B - - [01/Jan/2020:00:00:10 +0000] bar\n"]
        (fun _ => true) "foo|bar" =
      { output := [OutItem.line "A - - [31/12/2019:16:00:00 -0800] foo\n",
          OutItem.line "B - - [31/12/2019:16:00:10 -0800] bar\n"] ++
          [OutItem.counted "foo|bar"
             ([(⟨1577836800, 0⟩ : Timestamp), ⟨1577836810, 0⟩] : List Timestamp).length,
           OutItem.averageLine
             ((specSumDeltas [(⟨1577836800, 0⟩ : Timestamp), ⟨1577836810, 0⟩] : ℚ) /
              ((([(⟨1577836800, 0⟩ : Timestamp), ⟨1577836810, 0⟩] : List Timestamp).length : ℚ) - 1))],
        result := some 0 } ∧
    (∀ ts2 : List Timestamp,
      ts2.map Timestamp.instant =
        ([(⟨1577836800, 0⟩ : Timestamp), ⟨1577836810, 0⟩] : List Timestamp).map Timestamp.instant →
        get_average (pyDiff ts2) =
          get_average (pyDiff [(⟨1577836800, 0⟩ : Timestamp), ⟨1577836810, 0⟩])) :=
  c1_average
    ["A - - [01/Jan/2020:00:00:00 +0000] foo\n",
     "B - - [01/Jan/2020:00:00:10 +0000] bar\n"]
    (fun _ => true) "foo|bar"
    [OutItem.line "A - - [31/12/2019:16:00:00 -0800] foo\n",
     OutItem.line "B - - [31/12/2019:16:00:10 -0800] bar\n"]
    [⟨1577836800, 0⟩, ⟨1577836810, 0⟩] rfl (by decide)

theorem mainLoop_singleton {l : String} {t : Timestamp} (hget : get_time l = .ok t) :
    mainLoop [l] =
      ([.line (String.mk (subB (pacConvert t) (subA (pacConvert t) l.data)))],
       .ok [t]) := by
  have hgetL : get_timeL l.data = .ok t := hget
  have hpl : process_line l =
      .ok (String.mk (subB (pacConvert t) (subA (pacConvert t) l.data))) := by
    unfold process_line process_lineL
    rw [hgetL]
    rfl
  unfold mainLoop
  rw [hget, hpl]
  rfl

/-- C3 fails on the code as universally stated: in the run on the file
containing only the line `foo` (no bracketed timestamp) with a pattern
matching everything, exactly one line matches, yet the run crashes inside
the loop (uncaught IndexError from `get_time`): nothing at all is
printed, no rewritten line, no message, and the exit status is not 0. -/
theorem c3_counterexample :
    ["foo\n"].filter (fun _ => true) = ["foo\n"] ∧
    pyMain true ["foo\n"] (fun _ => true) "f" = { output := [], result := none } ∧
    (pyMain true ["foo\n"] (fun _ => true) "f").result ≠ some 0 := by
  refine ⟨rfl, rfl, ?_⟩
  intro hc
  rw [show (pyMain true ["foo\n"] (fun _ => true) "f").result = none from rfl] at hc
  exact Option.noConfusion hc

/-- C3 (amended): in a run in which exactly one line matches the pattern
AND that line carries a parseable bracketed timestamp, the program prints
exactly the one rewritten line followed by the "Found only one matching
line" message, computes no average, and returns 0. -/
theorem c3_one_match (fileLines : List String) (m : String → Bool) (pattern : String)
    (l : String) (t : Timestamp)
    (hfilter : fileLines.filter m = [l]) (hget : get_time l = .ok t) :
    pyMain true fileLines m pattern =
      { output := [.line (String.mk (subB (pacConvert t) (subA (pacConvert t) l.data))),
                   .msg "Found only one matching line"],
        result := some 0 } ∧
    (∀ v : ℚ, OutItem.averageLine v ∉ (pyMain true fileLines m pattern).output) ∧
    (∀ p n, OutItem.counted p n ∉ (pyMain true fileLines m pattern).output) := by
  have hloop : mainLoop (fileLines.filter m) =
      ([.line (String.mk (subB (pacConvert t) (subA (pacConvert t) l.data)))],
       .ok [t]) := by
    rw [hfilter]
    exact mainLoop_singleton hget
  have hmain : pyMain true fileLines m pattern =
      { output := [.line (String.mk (subB (pacConvert t) (subA (pacConvert t) l.data))),
                   .msg "Found only one matching line"],
        result := some 0 } := by
    rw [pyMain_ok hloop]
    unfold reportPhase
    rw [if_pos (by simp), if_neg (by simp)]
    rfl
  refine ⟨hmain, ?_, ?_⟩
  · intro v hv
    rw [hmain] at hv
    simp at hv
  · intro p n hv
    rw [hmain] at hv
    simp at hv

theorem c3_one_match_witness :
    pyMain true ["A - - [01/Jan/2020:00:00:00 +0000] foo\n"] (fun _ => true) "foo" =
      { output := [.line (String.mk (subB (pacConvert ⟨1577836800, 0⟩)
                     (subA (pacConvert ⟨1577836800, 0⟩)
                       "A - - [01/Jan/2020:00:00:00 +0000] foo\n".data))),
                   .msg "Found only one matching line"],
        result := some 0 } ∧
    (∀ v : ℚ, OutItem.averageLine v ∉
      (pyMain true ["A - - [01/Jan/2020:00:00:00 +0000] foo\n"] (fun _ => true) "foo").output) ∧
    (∀ p n, OutItem.counted p n ∉
      (pyMain true ["A - - [01/Jan/2020:00:00:00 +0000] foo\n"] (fun _ => true) "foo").output) :=
  c3_one_match ["A - - [01/Jan/2020:00:00:00 +0000] foo\n"] (fun _ => true) "foo"
    "A - - [01/Jan/2020:00:00:00 +0000] foo\n" ⟨1577836800, 0⟩ rfl rfl

/-- C4: the two substitutions of `process_line` are pattern-based text
replacements that are independent of each other: they commute, the prefix
pattern is effectively matched against the original line (replacing the
bracket match does not change the prefix match), `process_line` equals the
substitutions applied in either order, and when the prefix pattern does
not occur in the line the second substitution silently does nothing. -/
theorem c4_substitutions (t : Timestamp) (l : List Char) :
    subB t (subA t l) = subA t (subB t l) ∧
    matchB (subA t l) = matchB l ∧
    (matchB l = none → subB t l = l) ∧
    (∀ t0 : Timestamp, get_timeL l = .ok t0 →
      process_lineL l = .ok (subA (pacConvert t0) (subB (pacConvert t0) l))) := by
  refine ⟨subB_subA_comm t l, matchB_subA t l, fun h => subB_no_match h, ?_⟩
  intro t0 h0
  unfold process_lineL
  rw [h0]
  show Except.ok (subB (pacConvert t0) (subA (pacConvert t0) l)) = _
  rw [subB_subA_comm]

theorem c4_substitutions_witness :
    subB ⟨0, 0⟩ "b - - [x]\n".data = "b - - [x]\n".data ∧
    process_lineL "A - - [01/Jan/2020:00:00:00 +0000] foo\n".data =
      .ok (subA (pacConvert ⟨1577836800, 0⟩)
            (subB (pacConvert ⟨1577836800, 0⟩)
              "A - - [01/Jan/2020:00:00:00 +0000] foo\n".data)) :=
  ⟨(c4_substitutions ⟨0, 0⟩ "b - - [x]\n".data).2.2.1 rfl,
   (c4_substitutions ⟨0, 0⟩ "A - - [01/Jan/2020:00:00:00 +0000] foo\n".data).2.2.2
      ⟨1577836800, 0⟩ rfl⟩
